import Mathlib

set_option maxHeartbeats 1000000

/-!
Shallow embedding of the damnode repository (src/damnode.py and src/damnode2.py).

Strings from the Python source are modelled as `List Char`; a Python `str`
literal `s` appears here as `"s".data`.  Optional integers (Python
`int`-or-`None`) are `Option Nat`.  Fallible Python code (functions that raise
`ValueError` and friends) is modelled with `Option` or `Except`.
-/

/-- A parsed version triple `(major, minor, build)` as produced by
`_parse_version` in damnode.py and `parse_version` in damnode2.py:
the major component is always present, minor and build may be `None`. -/
abbrev Version := Nat × Option Nat × Option Nat

/-- Model of `DamNode.match` (damnode.py line 138), which returns
`not val or val == actual_val`, instantiated at integer components.  Python `not val` is true for `0` as well,
so a zero pattern component behaves as a wildcard. -/
def match_nat (actual_val val : Nat) : Bool :=
  val == 0 || val == actual_val

/-- Model of `DamNode.match` (damnode.py line 138) instantiated at optional integer
components (`None` or `int`).  Python `not val` is true both for `None` and
for `0`; `None == None` is true. -/
def match_opt (actual_val val : Option Nat) : Bool :=
  (match val with | none => true | some k => k == 0) || val == actual_val

/-- Model of `version_match` (damnode.py lines 111-121): a falsy pattern (`None`)
matches everything, otherwise the three components are compared with
`DamNode.match`. -/
def version_match (actual_ver : Version) (ver : Option Version) : Bool :=
  match ver with
  | none => true
  | some (m, mi, pa) =>
    match_nat actual_ver.1 m && match_opt actual_ver.2.1 mi && match_opt actual_ver.2.2 pa

/-- Strict order on optional integers as Python 2 compares them inside
tuples: `None` is below every integer. -/
def optLt (a b : Option Nat) : Bool :=
  match a, b with
  | none, none => false
  | none, some _ => true
  | some _, none => false
  | some x, some y => x < y

/-- The order used by Python 2 `sorted()` on version triples
`(major, minor-or-None, build-or-None)`: lexicographic, `None` lowest. -/
def verLe (v w : Version) : Bool :=
  v.1 < w.1 ||
    (v.1 == w.1 && (optLt v.2.1 w.2.1 ||
      (v.2.1 == w.2.1 && (optLt v.2.2 w.2.2 || v.2.2 == w.2.2))))

/-- One insertion step of an insertion sort by `verLe`; models the ascending
order produced by Python `sorted()` (keys are unique, so stability and the
exact sorting algorithm are irrelevant). -/
def insertV (x : Version) : List Version → List Version
  | [] => [x]
  | y :: ys => if verLe x y then x :: y :: ys else y :: insertV x ys

/-- Ascending sort by `verLe`, modelling Python `sorted()` on the keys of
`version_url_dict`. -/
def sortV (l : List Version) : List Version :=
  l.foldr insertV []

/-- Dictionary lookup `ver_url_dict[actual_version]` on an association-list
model of the dict (keys are unique). -/
def lookupUrl {α : Type} (v : Version) : List (Version × α) → Option α
  | [] => none
  | (w, u) :: rest => if w = v then some u else lookupUrl v rest

/-- Model of `find_version_url` (damnode.py lines 110-129) with `version_url_dict`
abstracted into the association list `d`: iterate over
`reversed(sorted(keys))`, return the dict entry of the first key for which
`version_match` holds, and `None` when there is none. -/
def find_version_url {α : Type} (version : Option Version) (d : List (Version × α)) : Option α :=
  match (sortV (d.map Prod.fst)).reverse.find? (fun v => version_match v version) with
  | none => none
  | some v => lookupUrl v d

/-- Pattern `^x86[^\d]64$` from `detect_arch` / `detect_architecture`. -/
def reX86sep64 (cs : List Char) : Bool :=
  match cs with
  | 'x' :: '8' :: '6' :: c :: '6' :: '4' :: [] => !c.isDigit
  | _ => false

/-- Pattern `^amd64$` from `detect_arch` / `detect_architecture`. -/
def reAmd64 (cs : List Char) : Bool :=
  cs == "amd64".data

/-- Pattern `^x86[^\d]` from `detect_arch` / `detect_architecture`
(`re.match` only anchors the start, so this is a prefix pattern). -/
def reX86sep (cs : List Char) : Bool :=
  match cs with
  | 'x' :: '8' :: '6' :: c :: _ => !c.isDigit
  | _ => false

/-- Pattern `^windows$` from `detect_platf` / `detect_platform_format`. -/
def reWindows (cs : List Char) : Bool :=
  cs == "windows".data

/-- Model of the `DamNode.map` / `Damnode._detect` rule loop: first matching pattern wins,
unmatched values fall through unchanged. -/
def mapRules : List ((List Char → Bool) × List Char) → List Char → List Char
  | [], v => v
  | (p, out) :: rest, v => if p v then out else mapRules rest v

/-- The architecture mapping table of `detect_arch` (damnode.py lines 149-157)
and `detect_architecture` (damnode2.py lines 259-275); the source carries a
TODO for arm64, armv6l, armv7l, ppc64, ppc64le and s390x. -/
def archMapping : List ((List Char → Bool) × List Char) :=
  [(reX86sep64, "x64".data), (reAmd64, "x64".data), (reX86sep, "x86".data)]

/-- Model of `detect_arch` / `detect_architecture` as a function of the machine
string: lowercase it, then apply the ordered rules. -/
def detect_arch (machine : List Char) : List Char :=
  mapRules archMapping (machine.map Char.toLower)

/-- The platform mapping table of `detect_platf` (damnode.py lines 141-147)
and `detect_platform_format` (damnode2.py lines 250-257). -/
def platformMapping : List ((List Char → Bool) × List Char) :=
  [(reWindows, "win".data)]

/-- Model of `detect_platf` (damnode.py lines 141-147) as a function of the system
string. -/
def detect_platf (system : List Char) : List Char :=
  mapRules platformMapping (system.map Char.toLower)

/-- Model of `detect_fmt` (damnode.py lines 159-160): zip for win, tar.gz otherwise. -/
def detect_fmt (platf : List Char) : List Char :=
  if platf == "win".data then "zip".data else "tar.gz".data

/-- Model of `detect_platform_format` (damnode2.py lines 250-257).  Line 256
computes the format by comparing the undefined name `plat` (the variable in
scope is `platf`), so evaluating it raises `NameError` on every call and
the function never returns a pair. -/
def detect_platform_format (system : List Char) : Except Unit (List Char × List Char) :=
  let platf := mapRules platformMapping (system.map Char.toLower)
  let fmt : Except Unit (List Char) := Except.error ()
  Except.map (fun f => (platf, f)) fmt

/-- Model of `osp.basename` for POSIX paths: everything after the final slash. -/
def basename (cs : List Char) : List Char :=
  (cs.reverse.takeWhile (fun c => c ≠ '/')).reverse

/-- Value of a run of decimal digits, as Python `int()` computes it. -/
def natFromDigits (cs : List Char) : Nat :=
  cs.foldl (fun n c => 10 * n + (c.toNat - 48)) 0

/-- Split a character list into its maximal leading run of decimal digits
and the rest; models the greedy `\d+` of the version regexes. -/
def splitDigits : List Char → List Char × List Char
  | [] => ([], [])
  | c :: cs =>
    if c.isDigit then
      ((splitDigits cs).1.cons c, (splitDigits cs).2)
    else ([], c :: cs)

/-- One digit group of the version regex: a nonempty maximal digit run and
its integer value, or failure. -/
def parseGroup (cs : List Char) : Option (Nat × List Char) :=
  match splitDigits cs with
  | ([], _) => none
  | (ds, r) => some (natFromDigits ds, r)

/-- The part of the version regex after the optional `v`:
`(?P<major>\d+)(\.(?P<minor>\d+))?(\.(?P<build>\d+))?$`.  The regex is
deterministic (each digit run is maximal, each dot is forced), so it is
modelled by this straight-line parser. -/
def parseCore (cs : List Char) : Option Version :=
  match parseGroup cs with
  | none => none
  | some (maj, r1) =>
    if r1 = [] then some (maj, none, none)
    else if r1.head? = some '.' then
      match parseGroup r1.tail with
      | none => none
      | some (mi, r3) =>
        if r3 = [] then some (maj, some mi, none)
        else if r3.head? = some '.' then
          match parseGroup r3.tail with
          | none => none
          | some (pa, r5) => if r5 = [] then some (maj, some mi, some pa) else none
        else none
    else none

/-- Model of `_parse_version` (damnode.py lines 405-413, with the default anchors) and
`Damnode.parse_version` (damnode2.py lines 241-248): regex
`^v?(?P<major>\d+)(\.(?P<minor>\d+))?(\.(?P<build>\d+))?$`, absent groups
become `None`. -/
def parse_version (cs : List Char) : Option Version :=
  if cs.head? = some 'v' then parseCore cs.tail else parseCore cs

/-- Model of `Damnode.all_package_suffixes` (damnode2.py lines 31-37). -/
def all_package_suffixes : List (List Char) :=
  [".gz".data, ".msi".data, ".pkg".data, ".xz".data, ".zip".data]

/-- Model of `Damnode.has_package_suffix` (damnode2.py lines 112-117). -/
def has_package_suffix (link : List Char) : Bool :=
  all_package_suffixes.any (fun s => s.isSuffixOf link)

/-- Maximal leading run of non-hyphen characters and the rest; models the
greedy `[^-]+` groups of `Damnode._package_re`. -/
def splitNonHyphen : List Char → List Char × List Char
  | [] => ([], [])
  | c :: cs =>
    if c = '-' then ([], c :: cs)
    else ((splitNonHyphen cs).1.cons c, (splitNonHyphen cs).2)

/-- Maximal leading run of non-dot characters and the rest; models the
greedy `[^\.]+` group of `Damnode._package_re`. -/
def splitNonDot : List Char → List Char × List Char
  | [] => ([], [])
  | c :: cs =>
    if c = '.' then ([], c :: cs)
    else ((splitNonDot cs).1.cons c, (splitNonDot cs).2)

/-- Model of `Damnode._package_re` (damnode2.py line 40):
`^node-(?P<version>[^-]+)-(?P<platform>[^-]+)-(?P<arch>[^\.]+)\.(?P<format>.+)$`.
All groups are greedy and their boundaries are forced, so the regex is
modelled by this deterministic parser returning the four groups. -/
def packageReMatch (cs : List Char) :
    Option (List Char × List Char × List Char × List Char) :=
  if cs.take 5 = "node-".data then
    let s1 := splitNonHyphen (cs.drop 5)
    if s1.1 = [] then none
    else if s1.2.head? = some '-' then
      let s2 := splitNonHyphen s1.2.tail
      if s2.1 = [] then none
      else if s2.2.head? = some '-' then
        let s3 := splitNonDot s2.2.tail
        if s3.1 = [] then none
        else if s3.2.head? = some '.' then
          if s3.2.tail = [] then none else some (s1.1, s2.1, s3.1, s3.2.tail)
        else none
      else none
    else none
  else none

/-- The three distinct `ValueError` causes of `Damnode.parse_package_name`:
unrecognized suffix, regex mismatch, and a version group rejected by
`parse_version` (the bare `ValueError` of damnode2.py line 245). -/
inductive PkgErr where
  | badSuffix
  | badRegex
  | badVersion
deriving DecidableEq

/-- Model of `Damnode.parse_package_name` (damnode2.py lines 224-239): suffix check,
then `_package_re`, then `parse_version` on the version group. -/
def parse_package_name (name : List Char) :
    Except PkgErr (Version × List Char × List Char × List Char) :=
  if has_package_suffix name = false then Except.error PkgErr.badSuffix
  else
    match packageReMatch name with
    | none => Except.error PkgErr.badRegex
    | some (ver, pl, ar, fmt) =>
      match parse_version ver with
      | none => Except.error PkgErr.badVersion
      | some v => Except.ok (v, pl, ar, fmt)

/-- A cached file: its content (the concatenation of the written chunks,
each chunk abstracted to a number) and its modification time. -/
abbrev Entry := List Nat × Nat

/-- The visible state of the cache directory: a map from filename to file. -/
abbrev FS := List Char → Option Entry

/-- Create or overwrite a file. -/
def setFile (n : List Char) (e : Entry) (fs : FS) : FS :=
  fun m => if m = n then some e else fs m

/-- Model of `os.remove`. -/
def removeFile (n : List Char) (fs : FS) : FS :=
  fun m => if m = n then none else fs m

/-- Model of `os.rename(a, b)`: the file keeps its content and stat. -/
def renameFile (a b : List Char) (fs : FS) : FS :=
  match fs a with
  | some e => setFile b e (removeFile a fs)
  | none => fs

/-- Model of `f.write(chunk)` on the temp file: append one chunk to its content. -/
def appendChunk (tmp : List Char) (c : Nat) (fs : FS) : FS :=
  match fs tmp with
  | some (cs, t) => setFile tmp (cs ++ [c], t) fs
  | none => setFile tmp ([c], 0) fs

/-- The download loop of `Damnode.download_package` (damnode2.py lines
145-149): write the streamed chunks to the temp file one by one; a failing
chunk (a raised exception, of abstract type `ε`) stops the loop.  Returns the
state of the cache directory at that point and the exception, if any. -/
def writeChunks {ε : Type} (tmp : List Char) : List (Except ε Nat) → FS → FS × Option ε
  | [], fs => (fs, none)
  | Except.error e :: _, fs => (fs, some e)
  | Except.ok c :: rest, fs => writeChunks tmp rest (appendChunk tmp c fs)

/-- First exception raised by the chunk stream, if any. -/
def firstErr {ε : Type} : List (Except ε Nat) → Option ε
  | [] => none
  | Except.error e :: _ => some e
  | Except.ok _ :: rest => firstErr rest

/-- The chunks the stream delivers before its first exception. -/
def payload {ε : Type} : List (Except ε Nat) → List Nat
  | [] => []
  | Except.error _ :: _ => []
  | Except.ok c :: rest => c :: payload rest

/-- How `Damnode.download_package` fails: the `ValueError` of
`parse_package_name` propagates, or the download raises (any exception). -/
inductive DlErr (ε : Type) where
  | invalidName (e : PkgErr)
  | network (e : ε)

/-- The externally visible I/O actions of `Damnode.download_package`:
`os.makedirs` on the cache directory, an HTTP GET, a local file copy. -/
inductive Eff where
  | mkdir
  | netGet
  | copy
deriving DecidableEq

/-- Model of `Damnode.download_package` (damnode2.py lines 119-158) with
`enable_cache = True`, as a function of the world it interacts with:
`link` is the argument, `isLocal`/`localE` say whether `osp.isfile(link)`
holds and what that file contains, `chunks` is the HTTP response stream,
`tmp` is the fresh name `tempfile.mkstemp` picks, `dlT` the mtime the new
file gets, `fs` the cache directory.  Steps, in source order: parse the
basename (before any I/O), ensure the cache directory, reuse a cached file,
else copy a local file (`copyfile` + `copystat`), else stream to the temp
file and rename it on success or remove it on failure.  Returns the yielded
filename or the exception, the final cache state, and the I/O actions
performed. -/
def download_package {ε : Type} (link : List Char) (isLocal : Bool) (localE : Entry)
    (chunks : List (Except ε Nat)) (tmp : List Char) (dlT : Nat) (fs : FS) :
    Except (DlErr ε) (List Char) × FS × List Eff :=
  let name := basename link
  match parse_package_name name with
  | Except.error e => (Except.error (DlErr.invalidName e), fs, [])
  | Except.ok _ =>
    match fs name with
    | some _ => (Except.ok name, fs, [Eff.mkdir])
    | none =>
      if isLocal then
        (Except.ok name, setFile name localE fs, [Eff.mkdir, Eff.copy])
      else
        let fs1 := setFile tmp ([], dlT) fs
        let res := writeChunks tmp chunks fs1
        match res.2 with
        | some e => (Except.error (DlErr.network e), removeFile tmp res.1, [Eff.mkdir, Eff.netGet])
        | none => (Except.ok name, renameFile tmp name res.1, [Eff.mkdir, Eff.netGet])

/-- Failure modes of the package-location resolution step. -/
inductive ResolveErr where
  | invalidPackage (e : PkgErr)
  | mismatch
deriving DecidableEq

/-- True when an explicitly requested tag is present and differs from the
tag parsed out of the package name. -/
def conflicts (req : Option (List Char)) (actual : List Char) : Bool :=
  match req with
  | none => false
  | some r => r != actual

/-- Modelled from the spec: the package-location step of the Resolver
(spec section 4.4, step 1).  src/damnode2.py `install` (lines 55-59) passes a
package-suffixed hint straight to `download_package` and has no requested
platform/arch parameters; the check that the parsed platform/arch of the
package name agrees with an explicitly requested platform/arch (exercised by
testdamnode2.py through `download_install_package` with `check_sys_arch`) is
not in src.  Per the spec: validate the hint parses as a package name, fail
with a descriptive mismatch error when the parsed platform or arch conflicts
with an explicitly requested one, otherwise resolve to the hint itself. -/
def resolve_package_hint (hint : List Char) (reqPlatf reqArch : Option (List Char)) :
    Except ResolveErr (List Char × Version × List Char × List Char × List Char) :=
  match parse_package_name (basename hint) with
  | Except.error e => Except.error (ResolveErr.invalidPackage e)
  | Except.ok (v, pl, ar, fmt) =>
    if conflicts reqPlatf pl then Except.error ResolveErr.mismatch
    else if conflicts reqArch ar then Except.error ResolveErr.mismatch
    else Except.ok (hint, v, pl, ar, fmt)

/-- The shape of the texts accepted by the version regex after the optional
`v`: one to three dot-separated nonempty decimal digit runs, nothing else,
with the parsed components recorded in `v`. -/
def CoreShape (cs : List Char) (v : Version) : Prop :=
  ∃ A, A ≠ [] ∧ A.all (fun c => c.isDigit) = true ∧ v.1 = natFromDigits A ∧
    ((v.2.1 = none ∧ v.2.2 = none ∧ cs = A) ∨
     (∃ B, B ≠ [] ∧ B.all (fun c => c.isDigit) = true ∧
        v.2.1 = some (natFromDigits B) ∧
       ((v.2.2 = none ∧ cs = A ++ '.' :: B) ∨
        (∃ C, C ≠ [] ∧ C.all (fun c => c.isDigit) = true ∧
           v.2.2 = some (natFromDigits C) ∧
           cs = A ++ '.' :: (B ++ '.' :: C)))))

/-- The shape of the texts accepted by the full version regex: an optional
leading `v` followed by a `CoreShape` text. -/
def VersionShape (cs : List Char) (v : Version) : Prop :=
  CoreShape cs v ∨ ∃ rest, cs = 'v' :: rest ∧ CoreShape rest v

/-- The language of `_package_re` with a valid version group, written as an
explicit decomposition: literal `node-`, a nonempty hyphen-free version
group accepted by `parse_version`, a hyphen, a nonempty hyphen-free
platform, a hyphen, a nonempty dot-free arch, a dot, and a nonempty format
taking everything after that dot. -/
def codeGrammar (cs : List Char) : Prop :=
  ∃ ver pl ar fmt : List Char,
    cs = 'n' :: 'o' :: 'd' :: 'e' :: '-' ::
      (ver ++ '-' :: (pl ++ '-' :: (ar ++ '.' :: fmt))) ∧
    ver ≠ [] ∧ ver.all (fun c => c ≠ '-') = true ∧ (parse_version ver).isSome = true ∧
    pl ≠ [] ∧ pl.all (fun c => c ≠ '-') = true ∧
    ar ≠ [] ∧ ar.all (fun c => c ≠ '.') = true ∧ fmt ≠ []

/-- The grammar exactly as the claim words it: `node-v<version>-...`, with a
mandatory literal `v` before the version components; otherwise identical to
`codeGrammar`. -/
def claimGrammar (cs : List Char) : Prop :=
  ∃ ver pl ar fmt : List Char,
    cs = 'n' :: 'o' :: 'd' :: 'e' :: '-' :: 'v' ::
      (ver ++ '-' :: (pl ++ '-' :: (ar ++ '.' :: fmt))) ∧
    ver ≠ [] ∧ ver.all (fun c => c ≠ '-') = true ∧ (parseCore ver).isSome = true ∧
    pl ≠ [] ∧ pl.all (fun c => c ≠ '-') = true ∧
    ar ≠ [] ∧ ar.all (fun c => c ≠ '.') = true ∧ fmt ≠ []

theorem verLe_total (v w : Version) : verLe v w = true ∨ verLe w v = true := by
  rcases v with ⟨a, b, c⟩
  rcases w with ⟨d, e, f⟩
  rcases b with _ | b <;> rcases c with _ | c <;> rcases e with _ | e <;> rcases f with _ | f <;>
    simp [verLe, optLt] <;> omega

theorem verLe_antisymm (v w : Version) (h1 : verLe v w = true) (h2 : verLe w v = true) :
    v = w := by
  rcases v with ⟨a, b, c⟩
  rcases w with ⟨d, e, f⟩
  rcases b with _ | b <;> rcases c with _ | c <;> rcases e with _ | e <;> rcases f with _ | f <;>
    simp [verLe, optLt] at h1 h2 ⊢ <;> omega

theorem verLe_trans (u v w : Version) (h1 : verLe u v = true) (h2 : verLe v w = true) :
    verLe u w = true := by
  rcases u with ⟨a, b, c⟩
  rcases v with ⟨d, e, f⟩
  rcases w with ⟨g, i, j⟩
  rcases b with _ | b <;> rcases c with _ | c <;> rcases e with _ | e <;> rcases f with _ | f <;>
    rcases i with _ | i <;> rcases j with _ | j <;>
    simp [verLe, optLt] at h1 h2 ⊢ <;> omega

theorem mem_insertV (x a : Version) (l : List Version) :
    a ∈ insertV x l ↔ a = x ∨ a ∈ l := by
  induction l with
  | nil => simp [insertV]
  | cons y ys ih =>
    by_cases h : verLe x y = true
    · simp [insertV, h]
    · simp only [insertV, if_neg h, List.mem_cons, ih]
      tauto

theorem sorted_insertV (x : Version) (l : List Version)
    (h : l.Pairwise (fun a b => verLe a b = true)) :
    (insertV x l).Pairwise (fun a b => verLe a b = true) := by
  induction l with
  | nil => simp [insertV]
  | cons y ys ih =>
    rcases List.pairwise_cons.mp h with ⟨hy, hys⟩
    by_cases hxy : verLe x y = true
    · simp only [insertV, if_pos hxy]
      refine List.pairwise_cons.mpr ⟨?_, h⟩
      intro b hb
      rcases List.mem_cons.mp hb with rfl | hb
      · exact hxy
      · exact verLe_trans x y b hxy (hy b hb)
    · simp only [insertV, if_neg hxy]
      refine List.pairwise_cons.mpr ⟨?_, ih hys⟩
      intro b hb
      rcases (mem_insertV x b ys).mp hb with heq | hb
      · subst heq
        rcases verLe_total b y with h1 | h1
        · exact absurd h1 hxy
        · exact h1
      · exact hy b hb

theorem mem_sortV (a : Version) (l : List Version) : a ∈ sortV l ↔ a ∈ l := by
  induction l with
  | nil => simp [sortV]
  | cons y ys ih =>
    show a ∈ insertV y (sortV ys) ↔ _
    rw [mem_insertV]
    simp [ih]

theorem sorted_sortV (l : List Version) :
    (sortV l).Pairwise (fun a b => verLe a b = true) := by
  induction l with
  | nil => simp [sortV]
  | cons y ys ih => exact sorted_insertV y (sortV ys) ih

theorem lookupUrl_of_mem {α : Type} (v : Version) (u : α) (d : List (Version × α))
    (hnd : (d.map Prod.fst).Nodup) (hm : (v, u) ∈ d) : lookupUrl v d = some u := by
  induction d with
  | nil => cases hm
  | cons p rest ih =>
    obtain ⟨w, x⟩ := p
    rcases List.mem_cons.mp hm with h | h
    · obtain ⟨rfl, rfl⟩ := Prod.mk.injEq _ _ _ _ |>.mp h.symm
      simp [lookupUrl]
    · simp only [List.map_cons, List.nodup_cons] at hnd
      have hvw : w ≠ v := by
        intro he
        exact hnd.1 (he ▸ (List.mem_map.mpr ⟨(v, u), h, rfl⟩))
      simp only [lookupUrl, if_neg hvw]
      exact ih hnd.2 h

theorem find_desc_max (p : Version → Bool) (ks : List Version)
    (hs : ks.Pairwise (fun a b => verLe b a = true)) (v : Version)
    (hv : v ∈ ks) (hp : p v = true)
    (hmax : ∀ w, w ∈ ks → p w = true → verLe w v = true) : ks.find? p = some v := by
  induction ks with
  | nil => cases hv
  | cons k t ih =>
    rcases List.pairwise_cons.mp hs with ⟨hk, ht⟩
    by_cases hpk : p k = true
    · have hkv : verLe k v = true := hmax k (List.mem_cons_self k t) hpk
      have hvk : verLe v k = true := by
        rcases List.mem_cons.mp hv with rfl | hvt
        · exact hkv
        · exact hk v hvt
      rw [List.find?_cons_of_pos _ hpk]
      exact congrArg some (verLe_antisymm k v hkv hvk)
    · have hpk' : p k = false := by
        cases h : p k
        · rfl
        · exact absurd h hpk
      rw [List.find?_cons_of_neg _ (by simp [hpk'])]
      have hvt : v ∈ t := by
        rcases List.mem_cons.mp hv with rfl | hvt
        · exact absurd hp hpk
        · exact hvt
      exact ih ht hvt (fun w hw hpw => hmax w (List.mem_cons_of_mem k hw) hpw)

/-- C1: for every set of available versions (the keys of the version/url
dict, in any listing order) and every version pattern (possibly unset),
`find_version_url` returns the URL of the highest available version for
which `version_match` holds, comparing versions lexicographically with unset
components lowest (`verLe`), and returns `None` when no version matches. -/
theorem find_version_url_highest {α : Type} (ver : Option Version)
    (d : List (Version × α)) (hnd : (d.map Prod.fst).Nodup) :
    (∀ v u, (v, u) ∈ d → version_match v ver = true →
      (∀ w u2, (w, u2) ∈ d → version_match w ver = true → verLe w v = true) →
      find_version_url ver d = some u) ∧
    ((∀ v u, (v, u) ∈ d → version_match v ver = false) →
      find_version_url ver d = none) := by
  constructor
  · intro v u hm hv hmax
    have hdesc : ((sortV (d.map Prod.fst)).reverse).Pairwise
        (fun a b => verLe b a = true) := by
      exact (List.pairwise_reverse).mpr (sorted_sortV (d.map Prod.fst))
    have hvmem : v ∈ (sortV (d.map Prod.fst)).reverse := by
      rw [List.mem_reverse, mem_sortV]
      exact List.mem_map.mpr ⟨(v, u), hm, rfl⟩
    have hfind : ((sortV (d.map Prod.fst)).reverse).find?
        (fun w => version_match w ver) = some v := by
      refine find_desc_max _ _ hdesc v hvmem hv ?_
      intro w hw hpw
      rw [List.mem_reverse, mem_sortV] at hw
      obtain ⟨⟨w', u2⟩, hwd, hfst⟩ := List.mem_map.mp hw
      cases hfst
      exact hmax w' u2 hwd hpw
    unfold find_version_url
    rw [hfind]
    exact lookupUrl_of_mem v u d hnd hm
  · intro hnone
    have hfind : ((sortV (d.map Prod.fst)).reverse).find?
        (fun w => version_match w ver) = none := by
      refine List.find?_eq_none.mpr ?_
      intro w hw
      rw [List.mem_reverse, mem_sortV] at hw
      obtain ⟨⟨w', u2⟩, hwd, hfst⟩ := List.mem_map.mp hw
      cases hfst
      simp [hnone w' u2 hwd]
    unfold find_version_url
    rw [hfind]

/-- Witness for C1 at a concrete index: versions listed out of numeric
order, no hint; the resolver picks `(8, 9, 9)`, the highest. -/
theorem find_version_url_highest_witness :
    find_version_url none
      [((4, some 0, some 0), "u4"), ((8, some 9, some 9), "u8"),
        ((8, some 0, some 0), "u80")] = some "u8" := by
  refine (find_version_url_highest none _ (by decide)).1 (8, some 9, some 9) "u8"
    (by simp) (by decide) ?_
  intro w u2 hw hm
  simp only [List.mem_cons, List.not_mem_nil, or_false, Prod.mk.injEq] at hw
  rcases hw with ⟨rfl, rfl⟩ | ⟨rfl, rfl⟩ | ⟨rfl, rfl⟩ <;> decide

/-- C2 is false on the code: `DamNode.match` tests `not val`, and Python
`not 0` is true, so a pattern component that is set to zero is a wildcard,
not a constraint.  The pattern `(5, 0, None)` (hint "5.0") matches the
actual version `5.9.3`, and `find_version_url` therefore resolves hint
"5.0" to the 5.9.3 entry when one is present. -/
theorem version_match_zero_wildcard :
    match_opt (some 9) (some 0) = true ∧
    version_match (5, some 9, some 3) (some (5, some 0, none)) = true ∧
    version_match (8, some 9, some 9) (some (8, some 0, some 0)) = true ∧
    find_version_url (some (5, some 0, none))
      [((5, some 0, some 0), "a"), ((5, some 9, some 3), "b")] = some "b" := by
  decide

/-- C5 is false on the code at "aarch64": the rule table of
`detect_arch` / `detect_architecture` has only the three x86 rules (the
arm64, armv6l, armv7l, ppc64, ppc64le, s390x rules are a TODO in the
source), so "aarch64" falls through unchanged instead of mapping to
"arm64"; the other four documented inputs behave as claimed. -/
theorem detect_arch_values :
    detect_arch "x86_64".data = "x64".data ∧
    detect_arch "amd64".data = "x64".data ∧
    detect_arch "armv7l".data = "armv7l".data ∧
    detect_arch "x88".data = "x88".data ∧
    detect_arch "aarch64".data = "aarch64".data := by
  decide

/-- C6: `detect_fmt` (damnode.py) returns zip exactly for win and tar.gz for
every other platform tag; but `detect_platform_format` (damnode2.py) never
returns at all: its line 256 evaluates the undefined name `plat` and so
raises `NameError` on every call. -/
theorem detect_fmt_values :
    detect_fmt "win".data = "zip".data ∧
    detect_fmt "aix".data = "tar.gz".data ∧
    detect_fmt "darwin".data = "tar.gz".data ∧
    detect_fmt "linux".data = "tar.gz".data ∧
    detect_fmt "sunos".data = "tar.gz".data ∧
    ∀ system : List Char, detect_platform_format system = Except.error () :=
  ⟨by decide, by decide, by decide, by decide, by decide, fun _ => rfl⟩

theorem writeChunks_snd {ε : Type} (tmp : List Char) (chunks : List (Except ε Nat)) (fs : FS) :
    (writeChunks tmp chunks fs).2 = firstErr chunks := by
  induction chunks generalizing fs with
  | nil => rfl
  | cons c rest ih =>
    cases c with
    | error e => rfl
    | ok k => exact ih (appendChunk tmp k fs)

theorem appendChunk_ne (tmp : List Char) (k : Nat) (fs : FS) (m : List Char) (hm : m ≠ tmp) :
    appendChunk tmp k fs m = fs m := by
  unfold appendChunk
  cases fs tmp with
  | none => simp [setFile, hm]
  | some e => obtain ⟨cs, t⟩ := e; simp [setFile, hm]

theorem writeChunks_fst_ne {ε : Type} (tmp : List Char) (chunks : List (Except ε Nat))
    (fs : FS) (m : List Char) (hm : m ≠ tmp) : (writeChunks tmp chunks fs).1 m = fs m := by
  induction chunks generalizing fs with
  | nil => rfl
  | cons c rest ih =>
    cases c with
    | error e => rfl
    | ok k => rw [writeChunks, ih (appendChunk tmp k fs), appendChunk_ne tmp k fs m hm]

theorem writeChunks_fst_tmp {ε : Type} (tmp : List Char) (chunks : List (Except ε Nat))
    (fs : FS) (cs : List Nat) (t : Nat) (hfs : fs tmp = some (cs, t))
    (hok : firstErr chunks = none) :
    (writeChunks tmp chunks fs).1 tmp = some (cs ++ payload chunks, t) := by
  induction chunks generalizing fs cs with
  | nil => simpa [writeChunks, payload] using hfs
  | cons c rest ih =>
    cases c with
    | error e => simp [firstErr] at hok
    | ok k =>
      have happ : (appendChunk tmp k fs) tmp = some (cs ++ [k], t) := by
        unfold appendChunk
        rw [hfs]
        simp [setFile]
      rw [writeChunks]
      rw [ih (appendChunk tmp k fs) (cs ++ [k]) happ hok]
      simp [payload]

theorem remove_writeChunks {ε : Type} (tmp : List Char) (chunks : List (Except ε Nat))
    (fs : FS) (e0 : Entry) (htmp : fs tmp = none) :
    removeFile tmp (writeChunks tmp chunks (setFile tmp e0 fs)).1 = fs := by
  funext m
  by_cases hm : m = tmp
  · subst hm
    simp [removeFile, htmp]
  · simp only [removeFile, if_neg hm]
    rw [writeChunks_fst_ne tmp chunks _ m hm]
    simp [setFile, hm]

/-- C7: the remote branch of `download_package` is atomic.  With no cached
file and no local file, if any chunk of the download raises then the
exception propagates, the temp file is removed, the cache directory is left
exactly as it was (in particular nothing sits under the final cache
filename); if every chunk arrives, the cache directory gains exactly the
fully-written file under the final name. -/
theorem download_package_atomic {ε : Type} (link tmp : List Char) (localE : Entry)
    (chunks : List (Except ε Nat)) (dlT : Nat) (fs : FS)
    (hok : ∃ pv, parse_package_name (basename link) = Except.ok pv)
    (hmiss : fs (basename link) = none) (htmp : fs tmp = none) :
    (∀ e, firstErr chunks = some e →
      download_package link false localE chunks tmp dlT fs =
        (Except.error (DlErr.network e), fs, [Eff.mkdir, Eff.netGet])) ∧
    (firstErr chunks = none →
      download_package link false localE chunks tmp dlT fs =
        (Except.ok (basename link), setFile (basename link) (payload chunks, dlT) fs,
          [Eff.mkdir, Eff.netGet])) := by
  obtain ⟨pv, hpv⟩ := hok
  constructor
  · intro e he
    have h2 : (writeChunks tmp chunks (setFile tmp ([], dlT) fs)).2 = some e := by
      rw [writeChunks_snd]; exact he
    simp only [download_package, hpv, hmiss, Bool.false_eq_true, if_false, h2]
    rw [remove_writeChunks tmp chunks fs ([], dlT) htmp]
  · intro he
    have h2 : (writeChunks tmp chunks (setFile tmp ([], dlT) fs)).2 = none := by
      rw [writeChunks_snd]; exact he
    simp only [download_package, hpv, hmiss, Bool.false_eq_true, if_false, h2]
    have htc : (writeChunks tmp chunks (setFile tmp ([], dlT) fs)).1 tmp =
        some ([] ++ payload chunks, dlT) :=
      writeChunks_fst_tmp tmp chunks _ [] dlT (by simp [setFile]) he
    unfold renameFile
    rw [htc]
    have hrm : removeFile tmp (writeChunks tmp chunks (setFile tmp ([], dlT) fs)).1 = fs :=
      remove_writeChunks tmp chunks fs ([], dlT) htmp
    rw [hrm]
    simp

/-- Witness for C7 at a concrete remote download whose second chunk raises
and at one that completes. -/
theorem download_package_atomic_witness :
    ((∀ e, firstErr ([Except.ok 1, Except.error 2] : List (Except Nat Nat)) = some e →
      download_package "node-v6.11.0-win-x64.zip".data false ([], 0)
          ([Except.ok 1, Except.error 2] : List (Except Nat Nat)) "t0".data 7 (fun _ => none) =
        (Except.error (DlErr.network e), (fun _ => none), [Eff.mkdir, Eff.netGet])) ∧
    (firstErr ([Except.ok 1, Except.error 2] : List (Except Nat Nat)) = none →
      download_package "node-v6.11.0-win-x64.zip".data false ([], 0)
          ([Except.ok 1, Except.error 2] : List (Except Nat Nat)) "t0".data 7 (fun _ => none) =
        (Except.ok (basename "node-v6.11.0-win-x64.zip".data),
          setFile (basename "node-v6.11.0-win-x64.zip".data)
            (payload ([Except.ok 1, Except.error 2] : List (Except Nat Nat)), 7) (fun _ => none),
          [Eff.mkdir, Eff.netGet]))) ∧
    ((∀ e, firstErr ([Except.ok 1, Except.ok 2] : List (Except Nat Nat)) = some e →
      download_package "node-v6.11.0-win-x64.zip".data false ([], 0)
          ([Except.ok 1, Except.ok 2] : List (Except Nat Nat)) "t0".data 7 (fun _ => none) =
        (Except.error (DlErr.network e), (fun _ => none), [Eff.mkdir, Eff.netGet])) ∧
    (firstErr ([Except.ok 1, Except.ok 2] : List (Except Nat Nat)) = none →
      download_package "node-v6.11.0-win-x64.zip".data false ([], 0)
          ([Except.ok 1, Except.ok 2] : List (Except Nat Nat)) "t0".data 7 (fun _ => none) =
        (Except.ok (basename "node-v6.11.0-win-x64.zip".data),
          setFile (basename "node-v6.11.0-win-x64.zip".data)
            (payload ([Except.ok 1, Except.ok 2] : List (Except Nat Nat)), 7) (fun _ => none),
          [Eff.mkdir, Eff.netGet]))) :=
  ⟨download_package_atomic "node-v6.11.0-win-x64.zip".data "t0".data ([], 0)
      ([Except.ok 1, Except.error 2] : List (Except Nat Nat)) 7 (fun _ => none) ⟨_, rfl⟩ rfl rfl,
    download_package_atomic "node-v6.11.0-win-x64.zip".data "t0".data ([], 0)
      ([Except.ok 1, Except.ok 2] : List (Except Nat Nat)) 7 (fun _ => none) ⟨_, rfl⟩ rfl rfl⟩

theorem dl_cache_hit {ε : Type} (link : List Char) (isLocal : Bool) (localE : Entry)
    (chunks : List (Except ε Nat)) (tmp : List Char) (dlT : Nat) (fs : FS)
    (pv : Version × List Char × List Char × List Char) (entry : Entry)
    (hpv : parse_package_name (basename link) = Except.ok pv)
    (hentry : fs (basename link) = some entry) :
    download_package link isLocal localE chunks tmp dlT fs =
      (Except.ok (basename link), fs, [Eff.mkdir]) := by
  simp only [download_package, hpv, hentry]

theorem dl_ok_state {ε : Type} (link : List Char) (isLocal : Bool) (localE : Entry)
    (chunks : List (Except ε Nat)) (tmp : List Char) (dlT : Nat) (fs : FS)
    (p : List Char) (fs2 : FS) (effs : List Eff)
    (h : download_package link isLocal localE chunks tmp dlT fs = (Except.ok p, fs2, effs)) :
    p = basename link ∧
      (∃ pv, parse_package_name (basename link) = Except.ok pv) ∧
      ∃ e2, fs2 (basename link) = some e2 := by
  cases hpv : parse_package_name (basename link) with
  | error e =>
    simp [download_package, hpv] at h
  | ok pv =>
    cases hentry : fs (basename link) with
    | some entry =>
      rw [dl_cache_hit link isLocal localE chunks tmp dlT fs pv entry hpv hentry] at h
      simp only [Prod.mk.injEq, Except.ok.injEq] at h
      obtain ⟨h1, h2, h3⟩ := h
      exact ⟨h1.symm, ⟨pv, rfl⟩, ⟨entry, by rw [← h2]; exact hentry⟩⟩
    | none =>
      cases hl : isLocal with
      | true =>
        simp only [download_package, hpv, hentry, hl, if_true, Prod.mk.injEq,
          Except.ok.injEq] at h
        obtain ⟨h1, h2, h3⟩ := h
        exact ⟨h1.symm, ⟨pv, rfl⟩, ⟨localE, by rw [← h2]; simp [setFile]⟩⟩
      | false =>
        cases herr : (writeChunks tmp chunks (setFile tmp ([], dlT) fs)).2 with
        | some e =>
          simp [download_package, hpv, hentry, hl, herr] at h
        | none =>
          simp only [download_package, hpv, hentry, hl, Bool.false_eq_true, if_false, herr,
            Prod.mk.injEq, Except.ok.injEq] at h
          obtain ⟨h1, h2, h3⟩ := h
          refine ⟨h1.symm, ⟨pv, rfl⟩, ?_⟩
          have hok : firstErr chunks = none := by rw [← writeChunks_snd tmp chunks]; exact herr
          have htc : (writeChunks tmp chunks (setFile tmp ([], dlT) fs)).1 tmp =
              some ([] ++ payload chunks, dlT) :=
            writeChunks_fst_tmp tmp chunks _ [] dlT (by simp [setFile]) hok
          rw [← h2]
          unfold renameFile
          rw [htc]
          exact ⟨([] ++ payload chunks, dlT), by simp [setFile]⟩

/-- C8: fetching is idempotent under caching.  First conjunct: when the
cache directory already holds a file under the basename of the link,
`download_package` yields that cached filename, leaves the cache state
(contents and mtimes) exactly unchanged and performs no network request or
file copy (its only I/O action is `os.makedirs`).  Second conjunct: after
any successful `download_package`, running it again on the same link leaves
the resulting cache state — in particular the file and its mtime — exactly
unchanged, again with no download or copy. -/
theorem download_package_idempotent {ε ε2 : Type} :
    (∀ (link : List Char) (isLocal : Bool) (localE : Entry)
        (chunks : List (Except ε Nat)) (tmp : List Char) (dlT : Nat) (fs : FS)
        (pv : Version × List Char × List Char × List Char) (entry : Entry),
      parse_package_name (basename link) = Except.ok pv →
      fs (basename link) = some entry →
      download_package link isLocal localE chunks tmp dlT fs =
        (Except.ok (basename link), fs, [Eff.mkdir])) ∧
    (∀ (link : List Char) (isL : Bool) (lE : Entry) (chunks : List (Except ε Nat))
        (tmp : List Char) (dlT : Nat) (fs : FS) (isL2 : Bool) (lE2 : Entry)
        (chunks2 : List (Except ε2 Nat)) (tmp2 : List Char) (dlT2 : Nat)
        (p : List Char) (fs2 : FS) (effs : List Eff),
      download_package link isL lE chunks tmp dlT fs = (Except.ok p, fs2, effs) →
      download_package link isL2 lE2 chunks2 tmp2 dlT2 fs2 =
        (Except.ok p, fs2, [Eff.mkdir])) := by
  constructor
  · intro link isLocal localE chunks tmp dlT fs pv entry hpv hentry
    exact dl_cache_hit link isLocal localE chunks tmp dlT fs pv entry hpv hentry
  · intro link isL lE chunks tmp dlT fs isL2 lE2 chunks2 tmp2 dlT2 p fs2 effs h
    obtain ⟨hp, ⟨pv, hpv⟩, ⟨e2, he2⟩⟩ :=
      dl_ok_state link isL lE chunks tmp dlT fs p fs2 effs h
    subst hp
    exact dl_cache_hit link isL2 lE2 chunks2 tmp2 dlT2 fs2 pv e2 hpv he2

/-- Witness for C8: a concrete first fetch copies a local package into an
empty cache; the second fetch of the same link returns the same file and
leaves the cache state untouched. -/
theorem download_package_idempotent_witness :
    download_package "node-v6.11.0-win-x64.zip".data false ([], 0)
        ([Except.error ()] : List (Except Unit Nat)) "t1".data 9
        (setFile "node-v6.11.0-win-x64.zip".data ([5], 3) (fun _ => none)) =
      (Except.ok "node-v6.11.0-win-x64.zip".data,
        setFile "node-v6.11.0-win-x64.zip".data ([5], 3) (fun _ => none), [Eff.mkdir]) :=
  (@download_package_idempotent Unit Unit).2
    "node-v6.11.0-win-x64.zip".data true ([5], 3) [] "t0".data 0 (fun _ => none)
    false ([], 0) [Except.error ()] "t1".data 9 _ _ _ rfl

/-- C10: for every link whose basename is not a valid package name,
`download_package` propagates the `parse_package_name` error, performs no
I/O action at all (no network request, no copy, not even `os.makedirs`),
and leaves the cache directory exactly unchanged. -/
theorem download_package_invalid_name {ε : Type} (link : List Char) (isLocal : Bool)
    (localE : Entry) (chunks : List (Except ε Nat)) (tmp : List Char) (dlT : Nat)
    (fs : FS) (e : PkgErr) (h : parse_package_name (basename link) = Except.error e) :
    download_package link isLocal localE chunks tmp dlT fs =
      (Except.error (DlErr.invalidName e), fs, []) := by
  simp only [download_package, h]

/-- Witness for C10 at the link of the `test_download_none_package` test:
the basename matches no package-name regex, the error propagates and the
empty cache stays empty. -/
theorem download_package_invalid_name_witness :
    download_package "https://nodejs.org/dist/not-node.zip".data false ([], 0)
        ([] : List (Except Unit Nat)) "t0".data 0 (fun _ => none) =
      (Except.error (DlErr.invalidName PkgErr.badRegex), (fun _ => none), []) :=
  download_package_invalid_name "https://nodejs.org/dist/not-node.zip".data false ([], 0)
    [] "t0".data 0 (fun _ => none) PkgErr.badRegex rfl

/-- C9 (spec-modelled): resolving a package-suffixed hint whose parsed
platform or architecture conflicts with an explicitly requested platform or
architecture fails with the mismatch error instead of resolving to the
package. -/
theorem resolve_package_hint_mismatch (hint : List Char)
    (reqPlatf reqArch : Option (List Char)) (v : Version) (pl ar fmt : List Char)
    (hp : parse_package_name (basename hint) = Except.ok (v, pl, ar, fmt))
    (hc : (∃ p, reqPlatf = some p ∧ p ≠ pl) ∨ (∃ a, reqArch = some a ∧ a ≠ ar)) :
    resolve_package_hint hint reqPlatf reqArch = Except.error ResolveErr.mismatch := by
  rcases hc with ⟨p, hr, hne⟩ | ⟨a, hr, hne⟩
  · have hcf : conflicts reqPlatf pl = true := by
      rw [hr]; simpa [conflicts] using hne
    simp only [resolve_package_hint, hp, hcf, if_true]
  · have hcf : conflicts reqArch ar = true := by
      rw [hr]; simpa [conflicts] using hne
    cases hcp : conflicts reqPlatf pl <;>
      simp only [resolve_package_hint, hp, hcp, hcf, if_true, Bool.false_eq_true, if_false]

/-- Witness for C9 at the scenario of `test_install_wrong_system`: an
aix-ppc64 package against an explicitly requested linux platform. -/
theorem resolve_package_hint_mismatch_witness :
    resolve_package_hint "node-v8.1.2-aix-ppc64.tar.gz".data (some "linux".data) none =
      Except.error ResolveErr.mismatch :=
  resolve_package_hint_mismatch "node-v8.1.2-aix-ppc64.tar.gz".data (some "linux".data) none
    (8, some 1, some 2) "aix".data "ppc64".data "tar.gz".data rfl
    (Or.inl ⟨"linux".data, rfl, by decide⟩)

theorem splitDigits_all (A : List Char) (hA : A.all (fun c => c.isDigit) = true) :
    splitDigits A = (A, []) := by
  induction A with
  | nil => rfl
  | cons a as ih =>
    simp only [List.all_cons, Bool.and_eq_true] at hA
    simp [splitDigits, hA.1, ih hA.2]

theorem splitDigits_append (A : List Char) (c : Char) (r : List Char)
    (hA : A.all (fun c => c.isDigit) = true) (hc : c.isDigit = false) :
    splitDigits (A ++ c :: r) = (A, c :: r) := by
  induction A with
  | nil => simp [splitDigits, hc]
  | cons a as ih =>
    simp only [List.all_cons, Bool.and_eq_true] at hA
    simp [splitDigits, hA.1, ih hA.2]

theorem splitDigits_sound (cs : List Char) :
    ∀ ds r, splitDigits cs = (ds, r) →
      cs = ds ++ r ∧ ds.all (fun c => c.isDigit) = true := by
  induction cs with
  | nil =>
    intro ds r h
    simp only [splitDigits, Prod.mk.injEq] at h
    rcases h with ⟨rfl, rfl⟩
    exact ⟨rfl, rfl⟩
  | cons a as ih =>
    intro ds r h
    by_cases ha : a.isDigit = true
    · cases hsd : splitDigits as with
      | mk ds1 r1 =>
        simp only [splitDigits, if_pos ha, hsd, Prod.mk.injEq] at h
        rcases h with ⟨rfl, rfl⟩
        obtain ⟨he, hall⟩ := ih ds1 r1 hsd
        constructor
        · simp [he]
        · simp [hall, ha]
    · simp only [splitDigits, if_neg ha, Prod.mk.injEq] at h
      rcases h with ⟨rfl, rfl⟩
      exact ⟨rfl, rfl⟩

theorem parseGroup_all (A : List Char) (hne : A ≠ [])
    (hA : A.all (fun c => c.isDigit) = true) :
    parseGroup A = some (natFromDigits A, []) := by
  unfold parseGroup
  rw [splitDigits_all A hA]
  cases A with
  | nil => exact absurd rfl hne
  | cons a as => rfl

theorem parseGroup_append (A : List Char) (c : Char) (r : List Char) (hne : A ≠ [])
    (hA : A.all (fun c => c.isDigit) = true) (hc : c.isDigit = false) :
    parseGroup (A ++ c :: r) = some (natFromDigits A, c :: r) := by
  unfold parseGroup
  rw [splitDigits_append A c r hA hc]
  cases A with
  | nil => exact absurd rfl hne
  | cons a as => rfl

theorem parseGroup_sound (cs : List Char) (n : Nat) (r : List Char)
    (h : parseGroup cs = some (n, r)) :
    ∃ A, cs = A ++ r ∧ A ≠ [] ∧ A.all (fun c => c.isDigit) = true ∧
      natFromDigits A = n := by
  unfold parseGroup at h
  cases hsd : splitDigits cs with
  | mk ds r1 =>
    rw [hsd] at h
    cases ds with
    | nil => cases h
    | cons d ds1 =>
      simp only [Option.some.injEq, Prod.mk.injEq] at h
      obtain ⟨hn, hr⟩ := h
      obtain ⟨he, hall⟩ := splitDigits_sound cs (d :: ds1) r1 hsd
      exact ⟨d :: ds1, by rw [he, hr], by simp, hall, hn⟩

theorem parseCore_one (A : List Char) (hne : A ≠ [])
    (hA : A.all (fun c => c.isDigit) = true) :
    parseCore A = some (natFromDigits A, none, none) := by
  unfold parseCore
  rw [parseGroup_all A hne hA]
  rfl

theorem parseCore_two (A B : List Char) (hA1 : A ≠ [])
    (hA2 : A.all (fun c => c.isDigit) = true) (hB1 : B ≠ [])
    (hB2 : B.all (fun c => c.isDigit) = true) :
    parseCore (A ++ '.' :: B) =
      some (natFromDigits A, some (natFromDigits B), none) := by
  unfold parseCore
  rw [parseGroup_append A '.' B hA1 hA2 (by decide)]
  simp [parseGroup_all B hB1 hB2]

theorem parseCore_three (A B C : List Char) (hA1 : A ≠ [])
    (hA2 : A.all (fun c => c.isDigit) = true) (hB1 : B ≠ [])
    (hB2 : B.all (fun c => c.isDigit) = true) (hC1 : C ≠ [])
    (hC2 : C.all (fun c => c.isDigit) = true) :
    parseCore (A ++ '.' :: (B ++ '.' :: C)) =
      some (natFromDigits A, some (natFromDigits B), some (natFromDigits C)) := by
  unfold parseCore
  rw [parseGroup_append A '.' (B ++ '.' :: C) hA1 hA2 (by decide)]
  simp [parseGroup_append B '.' C hB1 hB2 (by decide), parseGroup_all C hC1 hC2]

theorem parseCore_four (A B C D : List Char) (hA1 : A ≠ [])
    (hA2 : A.all (fun c => c.isDigit) = true) (hB1 : B ≠ [])
    (hB2 : B.all (fun c => c.isDigit) = true) (hC1 : C ≠ [])
    (hC2 : C.all (fun c => c.isDigit) = true) :
    parseCore (A ++ '.' :: (B ++ '.' :: (C ++ '.' :: D))) = none := by
  unfold parseCore
  rw [parseGroup_append A '.' (B ++ '.' :: (C ++ '.' :: D)) hA1 hA2 (by decide)]
  simp [parseGroup_append B '.' (C ++ '.' :: D) hB1 hB2 (by decide),
    parseGroup_append C '.' D hC1 hC2 (by decide)]

theorem head_digit_ne_v (A X : List Char) (hne : A ≠ [])
    (hA : A.all (fun c => c.isDigit) = true) : ∀ rest, A ++ X ≠ 'v' :: rest := by
  intro rest he
  cases A with
  | nil => exact hne rfl
  | cons a as =>
    simp only [List.cons_append, List.cons.injEq] at he
    have ha : a.isDigit = true := by
      simp only [List.all_cons, Bool.and_eq_true] at hA
      exact hA.1
    rw [he.1] at ha
    exact absurd ha (by decide)

theorem parse_version_eq_parseCore (cs : List Char) (h : ∀ rest, cs ≠ 'v' :: rest) :
    parse_version cs = parseCore cs := by
  unfold parse_version
  rw [if_neg]
  intro hh
  cases cs with
  | nil => cases hh
  | cons c cs1 =>
    simp only [List.head?, Option.some.injEq] at hh
    exact h cs1 (by rw [hh])

theorem parseCore_sound (cs : List Char) (v : Version) (h : parseCore cs = some v) :
    CoreShape cs v := by
  unfold parseCore at h
  split at h
  · cases h
  · rename_i p1 maj r1 heq1
    obtain ⟨A, hcsA, hAne, hAall, hAn⟩ := parseGroup_sound cs maj r1 heq1
    by_cases h1 : r1 = []
    · rw [if_pos h1] at h
      simp only [Option.some.injEq] at h
      subst h
      subst h1
      exact ⟨A, hAne, hAall, hAn.symm, Or.inl ⟨rfl, rfl, by simpa using hcsA⟩⟩
    · rw [if_neg h1] at h
      by_cases h2 : r1.head? = some '.'
      · rw [if_pos h2] at h
        obtain ⟨c1, r2, rfl⟩ : ∃ c1 r2, r1 = c1 :: r2 := by
          cases r1 with
          | nil => exact absurd rfl h1
          | cons c1 r2 => exact ⟨c1, r2, rfl⟩
        simp only [List.head?, Option.some.injEq] at h2
        subst h2
        simp only [List.tail] at h
        split at h
        · cases h
        · rename_i p2 mi r3 heq2
          obtain ⟨B, hrB, hBne, hBall, hBn⟩ := parseGroup_sound r2 mi r3 heq2
          by_cases h3 : r3 = []
          · rw [if_pos h3] at h
            simp only [Option.some.injEq] at h
            subst h
            subst h3
            refine ⟨A, hAne, hAall, hAn.symm,
              Or.inr ⟨B, hBne, hBall, hBn.symm ▸ rfl, Or.inl ⟨rfl, ?_⟩⟩⟩
            rw [hcsA, hrB]
            simp
          · rw [if_neg h3] at h
            by_cases h4 : r3.head? = some '.'
            · rw [if_pos h4] at h
              obtain ⟨c2, r4, rfl⟩ : ∃ c2 r4, r3 = c2 :: r4 := by
                cases r3 with
                | nil => exact absurd rfl h3
                | cons c2 r4 => exact ⟨c2, r4, rfl⟩
              simp only [List.head?, Option.some.injEq] at h4
              subst h4
              simp only [List.tail] at h
              split at h
              · cases h
              · rename_i p3 pa r5 heq3
                obtain ⟨C, hrC, hCne, hCall, hCn⟩ := parseGroup_sound r4 pa r5 heq3
                by_cases h5 : r5 = []
                · rw [if_pos h5] at h
                  simp only [Option.some.injEq] at h
                  subst h
                  subst h5
                  refine ⟨A, hAne, hAall, hAn.symm,
                    Or.inr ⟨B, hBne, hBall, hBn.symm ▸ rfl,
                      Or.inr ⟨C, hCne, hCall, hCn.symm ▸ rfl, ?_⟩⟩⟩
                  rw [hcsA, hrB, hrC]
                  simp
                · rw [if_neg h5] at h
                  cases h
            · rw [if_neg h4] at h
              cases h
      · rw [if_neg h2] at h
        cases h

theorem digits_ne_v (A : List Char) (hA : A.all (fun c => c.isDigit) = true) :
    ∀ rest, A ≠ 'v' :: rest := by
  intro rest he
  subst he
  rw [List.all_cons, Bool.and_eq_true] at hA
  exact absurd hA.1 (by decide)

theorem parse_version_v (X : List Char) : parse_version ('v' :: X) = parseCore X := by
  simp [parse_version]

/-- C3: `parse_version` accepts exactly the texts made of an optional
leading `v` followed by one to three dot-separated decimal components,
returning the parsed components with absent groups unset; a fourth
dot-separated component makes it fail, and (by the soundness conjunct) so
does every text outside that shape, such as `node-v4`. -/
theorem parse_version_spec :
    (∀ A, A ≠ [] → A.all (fun c => c.isDigit) = true →
      parse_version A = some (natFromDigits A, none, none) ∧
      parse_version ('v' :: A) = some (natFromDigits A, none, none)) ∧
    (∀ A B, A ≠ [] → A.all (fun c => c.isDigit) = true →
        B ≠ [] → B.all (fun c => c.isDigit) = true →
      parse_version (A ++ '.' :: B) =
        some (natFromDigits A, some (natFromDigits B), none) ∧
      parse_version ('v' :: (A ++ '.' :: B)) =
        some (natFromDigits A, some (natFromDigits B), none)) ∧
    (∀ A B C, A ≠ [] → A.all (fun c => c.isDigit) = true →
        B ≠ [] → B.all (fun c => c.isDigit) = true →
        C ≠ [] → C.all (fun c => c.isDigit) = true →
      parse_version (A ++ '.' :: (B ++ '.' :: C)) =
        some (natFromDigits A, some (natFromDigits B), some (natFromDigits C)) ∧
      parse_version ('v' :: (A ++ '.' :: (B ++ '.' :: C))) =
        some (natFromDigits A, some (natFromDigits B), some (natFromDigits C))) ∧
    (∀ A B C D, A ≠ [] → A.all (fun c => c.isDigit) = true →
        B ≠ [] → B.all (fun c => c.isDigit) = true →
        C ≠ [] → C.all (fun c => c.isDigit) = true →
      parse_version (A ++ '.' :: (B ++ '.' :: (C ++ '.' :: D))) = none ∧
      parse_version ('v' :: (A ++ '.' :: (B ++ '.' :: (C ++ '.' :: D)))) = none) ∧
    (∀ cs v, parse_version cs = some v → VersionShape cs v) := by
  refine ⟨?_, ?_, ?_, ?_, ?_⟩
  · intro A h1 h2
    constructor
    · rw [parse_version_eq_parseCore A (digits_ne_v A h2)]
      exact parseCore_one A h1 h2
    · rw [parse_version_v]
      exact parseCore_one A h1 h2
  · intro A B hA1 hA2 hB1 hB2
    have hc := parseCore_two A B hA1 hA2 hB1 hB2
    constructor
    · rw [parse_version_eq_parseCore _ (head_digit_ne_v A _ hA1 hA2)]
      exact hc
    · rw [parse_version_v]
      exact hc
  · intro A B C hA1 hA2 hB1 hB2 hC1 hC2
    have hc := parseCore_three A B C hA1 hA2 hB1 hB2 hC1 hC2
    constructor
    · rw [parse_version_eq_parseCore _ (head_digit_ne_v A _ hA1 hA2)]
      exact hc
    · rw [parse_version_v]
      exact hc
  · intro A B C D hA1 hA2 hB1 hB2 hC1 hC2
    have hc := parseCore_four A B C D hA1 hA2 hB1 hB2 hC1 hC2
    constructor
    · rw [parse_version_eq_parseCore _ (head_digit_ne_v A _ hA1 hA2)]
      exact hc
    · rw [parse_version_v]
      exact hc
  · intro cs v h
    unfold parse_version at h
    by_cases hv : cs.head? = some 'v'
    · rw [if_pos hv] at h
      obtain ⟨c0, rest, rfl⟩ : ∃ c0 rest, cs = c0 :: rest := by
        cases cs with
        | nil => cases hv
        | cons c0 rest => exact ⟨c0, rest, rfl⟩
      simp only [List.head?, Option.some.injEq] at hv
      subst hv
      simp only [List.tail] at h
      exact Or.inr ⟨rest, rfl, parseCore_sound rest v h⟩
    · rw [if_neg hv] at h
      exact Or.inl (parseCore_sound cs v h)

/-- Witness for C3 at the round-trip examples of the claim. -/
theorem parse_version_spec_witness :
    parse_version "4.0.0".data = some (4, some 0, some 0) ∧
    parse_version "5.0".data = some (5, some 0, none) ∧
    parse_version "6".data = some (6, none, none) ∧
    parse_version "v7.0".data = some (7, some 0, none) ∧
    parse_version "1.2.3.4".data = none :=
  ⟨(parse_version_spec.2.2.1 ['4'] ['0'] ['0'] (by decide) (by decide) (by decide)
      (by decide) (by decide) (by decide)).1,
    (parse_version_spec.2.1 ['5'] ['0'] (by decide) (by decide) (by decide) (by decide)).1,
    (parse_version_spec.1 ['6'] (by decide) (by decide)).1,
    (parse_version_spec.2.1 ['7'] ['0'] (by decide) (by decide) (by decide) (by decide)).2,
    (parse_version_spec.2.2.2.1 ['1'] ['2'] ['3'] ['4'] (by decide) (by decide) (by decide)
      (by decide) (by decide) (by decide)).1⟩

theorem splitNonHyphen_append (A r : List Char)
    (hA : A.all (fun c => c ≠ '-') = true) :
    splitNonHyphen (A ++ '-' :: r) = (A, '-' :: r) := by
  induction A with
  | nil => simp [splitNonHyphen]
  | cons a as ih =>
    simp only [List.all_cons, Bool.and_eq_true, decide_eq_true_eq] at hA
    simp [splitNonHyphen, hA.1, ih (by simpa using hA.2)]

theorem splitNonHyphen_sound (cs : List Char) :
    ∀ ds r, splitNonHyphen cs = (ds, r) →
      cs = ds ++ r ∧ ds.all (fun c => c ≠ '-') = true := by
  induction cs with
  | nil =>
    intro ds r h
    simp only [splitNonHyphen, Prod.mk.injEq] at h
    rcases h with ⟨rfl, rfl⟩
    exact ⟨rfl, rfl⟩
  | cons a as ih =>
    intro ds r h
    by_cases ha : a = '-'
    · simp only [splitNonHyphen, if_pos ha, Prod.mk.injEq] at h
      rcases h with ⟨rfl, rfl⟩
      exact ⟨rfl, rfl⟩
    · cases hsd : splitNonHyphen as with
      | mk ds1 r1 =>
        simp only [splitNonHyphen, if_neg ha, hsd, Prod.mk.injEq] at h
        rcases h with ⟨rfl, rfl⟩
        obtain ⟨he, hall⟩ := ih ds1 r1 hsd
        refine ⟨by simp [he], ?_⟩
        rw [List.all_cons, Bool.and_eq_true]
        exact ⟨by simp [ha], hall⟩

theorem splitNonDot_append (A r : List Char)
    (hA : A.all (fun c => c ≠ '.') = true) :
    splitNonDot (A ++ '.' :: r) = (A, '.' :: r) := by
  induction A with
  | nil => simp [splitNonDot]
  | cons a as ih =>
    simp only [List.all_cons, Bool.and_eq_true, decide_eq_true_eq] at hA
    simp [splitNonDot, hA.1, ih (by simpa using hA.2)]

theorem splitNonDot_sound (cs : List Char) :
    ∀ ds r, splitNonDot cs = (ds, r) →
      cs = ds ++ r ∧ ds.all (fun c => c ≠ '.') = true := by
  induction cs with
  | nil =>
    intro ds r h
    simp only [splitNonDot, Prod.mk.injEq] at h
    rcases h with ⟨rfl, rfl⟩
    exact ⟨rfl, rfl⟩
  | cons a as ih =>
    intro ds r h
    by_cases ha : a = '.'
    · simp only [splitNonDot, if_pos ha, Prod.mk.injEq] at h
      rcases h with ⟨rfl, rfl⟩
      exact ⟨rfl, rfl⟩
    · cases hsd : splitNonDot as with
      | mk ds1 r1 =>
        simp only [splitNonDot, if_neg ha, hsd, Prod.mk.injEq] at h
        rcases h with ⟨rfl, rfl⟩
        obtain ⟨he, hall⟩ := ih ds1 r1 hsd
        refine ⟨by simp [he], ?_⟩
        rw [List.all_cons, Bool.and_eq_true]
        exact ⟨by simp [ha], hall⟩

theorem packageReMatch_complete (ver pl ar fmt : List Char)
    (hv : ver ≠ []) (hva : ver.all (fun c => c ≠ '-') = true)
    (hp : pl ≠ []) (hpa : pl.all (fun c => c ≠ '-') = true)
    (ha : ar ≠ []) (haa : ar.all (fun c => c ≠ '.') = true) (hf : fmt ≠ []) :
    packageReMatch ('n' :: 'o' :: 'd' :: 'e' :: '-' ::
        (ver ++ '-' :: (pl ++ '-' :: (ar ++ '.' :: fmt)))) =
      some (ver, pl, ar, fmt) := by
  unfold packageReMatch
  rw [if_pos (by simp [List.take])]
  have hd : ('n' :: 'o' :: 'd' :: 'e' :: '-' ::
      (ver ++ '-' :: (pl ++ '-' :: (ar ++ '.' :: fmt)))).drop 5 =
      ver ++ '-' :: (pl ++ '-' :: (ar ++ '.' :: fmt)) := by simp [List.drop]
  rw [hd, splitNonHyphen_append ver _ hva]
  simp only [if_neg hv, List.head?, List.tail, Option.some.injEq, if_pos rfl]
  rw [splitNonHyphen_append pl _ hpa]
  simp only [if_neg hp, List.head?, List.tail, Option.some.injEq, if_pos rfl]
  rw [splitNonDot_append ar _ haa]
  simp only [if_neg ha, List.head?, List.tail, Option.some.injEq, if_pos rfl, if_neg hf]
  simp

theorem packageReMatch_sound (cs ver pl ar fmt : List Char)
    (h : packageReMatch cs = some (ver, pl, ar, fmt)) :
    cs = 'n' :: 'o' :: 'd' :: 'e' :: '-' ::
        (ver ++ '-' :: (pl ++ '-' :: (ar ++ '.' :: fmt))) ∧
      ver ≠ [] ∧ ver.all (fun c => c ≠ '-') = true ∧
      pl ≠ [] ∧ pl.all (fun c => c ≠ '-') = true ∧
      ar ≠ [] ∧ ar.all (fun c => c ≠ '.') = true ∧ fmt ≠ [] := by
  unfold packageReMatch at h
  by_cases h0 : cs.take 5 = "node-".data
  case neg => rw [if_neg h0] at h; cases h
  case pos =>
  rw [if_pos h0] at h
  simp only [] at h
  cases hs1 : splitNonHyphen (cs.drop 5) with
  | mk ver1 r1 =>
    simp only [hs1] at h
    by_cases hv : ver1 = []
    · rw [if_pos hv] at h; cases h
    · rw [if_neg hv] at h
      by_cases hh1 : r1.head? = some '-'
      case neg => rw [if_neg hh1] at h; cases h
      case pos =>
      rw [if_pos hh1] at h
      obtain ⟨c1, r2, rfl⟩ : ∃ c1 r2, r1 = c1 :: r2 := by
        cases r1 with
        | nil => cases hh1
        | cons c1 r2 => exact ⟨c1, r2, rfl⟩
      simp only [List.head?, Option.some.injEq] at hh1
      subst hh1
      simp only [List.tail] at h
      cases hs2 : splitNonHyphen r2 with
      | mk pl1 r3 =>
        simp only [hs2] at h
        by_cases hp : pl1 = []
        · rw [if_pos hp] at h; cases h
        · rw [if_neg hp] at h
          by_cases hh2 : r3.head? = some '-'
          case neg => rw [if_neg hh2] at h; cases h
          case pos =>
          rw [if_pos hh2] at h
          obtain ⟨c2, r4, rfl⟩ : ∃ c2 r4, r3 = c2 :: r4 := by
            cases r3 with
            | nil => cases hh2
            | cons c2 r4 => exact ⟨c2, r4, rfl⟩
          simp only [List.head?, Option.some.injEq] at hh2
          subst hh2
          simp only [List.tail] at h
          cases hs3 : splitNonDot r4 with
          | mk ar1 r5 =>
            simp only [hs3] at h
            by_cases hra : ar1 = []
            · rw [if_pos hra] at h; cases h
            · rw [if_neg hra] at h
              by_cases hh3 : r5.head? = some '.'
              case neg => rw [if_neg hh3] at h; cases h
              case pos =>
              rw [if_pos hh3] at h
              obtain ⟨c3, fmt1, rfl⟩ : ∃ c3 fmt1, r5 = c3 :: fmt1 := by
                cases r5 with
                | nil => cases hh3
                | cons c3 fmt1 => exact ⟨c3, fmt1, rfl⟩
              simp only [List.head?, Option.some.injEq] at hh3
              subst hh3
              simp only [List.tail] at h
              by_cases hfm : fmt1 = []
              · rw [if_pos hfm] at h; cases h
              · rw [if_neg hfm] at h
                simp only [Option.some.injEq, Prod.mk.injEq] at h
                obtain ⟨rfl, rfl, rfl, rfl⟩ := h
                obtain ⟨he1, ha1⟩ := splitNonHyphen_sound (cs.drop 5) ver1 ('-' :: r2) hs1
                obtain ⟨he2, ha2⟩ := splitNonHyphen_sound r2 pl1 ('-' :: r4) hs2
                obtain ⟨he3, ha3⟩ := splitNonDot_sound r4 ar1 ('.' :: fmt1) hs3
                refine ⟨?_, hv, ha1, hp, ha2, hra, ha3, hfm⟩
                have hcs : cs.take 5 ++ cs.drop 5 = cs := List.take_append_drop 5 cs
                rw [h0] at hcs
                rw [← hcs, he1, he2, he3]
                rfl

/-- C4 (amended): `parse_package_name` succeeds and returns the four parsed
pieces exactly when the filename ends with a known package suffix and
matches `node-<version>-<platform>-<arch>.<format>` with the leading `v` of
the version OPTIONAL (the claim required a literal `v`; see
`parse_package_name_missing_v`), where the format is everything after the
dot that ends the arch; an unrecognized suffix and a regex mismatch are two
distinct error causes, reported separately. -/
theorem parse_package_name_spec :
    (∀ cs, (∃ out, parse_package_name cs = Except.ok out) ↔
      (has_package_suffix cs = true ∧ codeGrammar cs)) ∧
    (∀ cs, has_package_suffix cs = false →
      parse_package_name cs = Except.error PkgErr.badSuffix) ∧
    (∀ cs, has_package_suffix cs = true → packageReMatch cs = none →
      parse_package_name cs = Except.error PkgErr.badRegex) ∧
    parse_package_name "node-v8.1.2-darwin-x64.tar.gz".data =
      Except.ok ((8, some 1, some 2), "darwin".data, "x64".data, "tar.gz".data) ∧
    parse_package_name "foobar-v8.1.2-darwin-x64.tar.gz".data =
      Except.error PkgErr.badRegex ∧
    parse_package_name "node-v8.1.2-darwin-x64".data =
      Except.error PkgErr.badSuffix := by
  refine ⟨?_, ?_, ?_, by rfl, by rfl, by rfl⟩
  · intro cs
    constructor
    · rintro ⟨out, hout⟩
      unfold parse_package_name at hout
      by_cases hs : has_package_suffix cs = false
      · rw [if_pos hs] at hout; cases hout
      · rw [if_neg hs] at hout
        refine ⟨by revert hs; cases has_package_suffix cs <;> simp, ?_⟩
        cases hm : packageReMatch cs with
        | none => simp [hm] at hout
        | some g =>
          obtain ⟨ver, pl, ar, fmt⟩ := g
          simp only [hm] at hout
          obtain ⟨hdec, hv, hva, hp, hpa, har, haa, hf⟩ :=
            packageReMatch_sound cs ver pl ar fmt hm
          cases hpv : parse_version ver with
          | none => simp [hpv] at hout
          | some v =>
            exact ⟨ver, pl, ar, fmt, hdec, hv, hva, by rw [hpv]; rfl,
              hp, hpa, har, haa, hf⟩
    · rintro ⟨hsuf, ver, pl, ar, fmt, hdec, hv, hva, hvs, hp, hpa, har, haa, hf⟩
      subst hdec
      have hm := packageReMatch_complete ver pl ar fmt hv hva hp hpa har haa hf
      obtain ⟨v, hpv⟩ := Option.isSome_iff_exists.mp hvs
      refine ⟨(v, pl, ar, fmt), ?_⟩
      unfold parse_package_name
      rw [if_neg (by rw [hsuf]; simp)]
      simp only [hm, hpv]
  · intro cs hs
    unfold parse_package_name
    rw [if_pos hs]
  · intro cs hs hm
    unfold parse_package_name
    rw [if_neg (by rw [hs]; simp), hm]

/-- Witness for C4 at the two failure examples of the claim, each through
its own distinct error cause. -/
theorem parse_package_name_spec_witness :
    parse_package_name "node-v8.1.2-darwin-x64".data =
      Except.error PkgErr.badSuffix ∧
    parse_package_name "foobar-v8.1.2-darwin-x64.tar.gz".data =
      Except.error PkgErr.badRegex :=
  ⟨parse_package_name_spec.2.1 "node-v8.1.2-darwin-x64".data rfl,
    parse_package_name_spec.2.2.1 "foobar-v8.1.2-darwin-x64.tar.gz".data rfl rfl⟩

/-- Counterexample to C4 as stated: the regex `^node-...` has no literal
`v` before the version group and `parse_version` accepts a bare version, so
the name `node-8.1.2-linux-x64.tar.gz` — which ends in a known suffix but
does not match the claimed grammar `node-v<version>-<platform>-<arch>.<format>`
— is nevertheless parsed successfully. -/
theorem parse_package_name_missing_v :
    (∃ out, parse_package_name "node-8.1.2-linux-x64.tar.gz".data = Except.ok out) ∧
    has_package_suffix "node-8.1.2-linux-x64.tar.gz".data = true ∧
    ¬ claimGrammar "node-8.1.2-linux-x64.tar.gz".data := by
  refine ⟨⟨((8, some 1, some 2), "linux".data, "x64".data, "tar.gz".data), rfl⟩, rfl, ?_⟩
  rintro ⟨ver, pl, ar, fmt, heq, -⟩
  have hL : "node-8.1.2-linux-x64.tar.gz".data =
      'n' :: 'o' :: 'd' :: 'e' :: '-' :: '8' :: ".1.2-linux-x64.tar.gz".data := rfl
  rw [hL] at heq
  simp only [List.cons.injEq] at heq
  exact absurd heq.2.2.2.2.2.1 (by decide)
